import Mathlib

/-!
# Verification of the VexCL stencil convolution core

This development gives a shallow embedding, in Lean 4, of the stencil /
generalized-stencil convolution engine of the `vexcl` repository
(`src/vexcl/stencil.hpp`) together with its supporting kernel-compilation
and scoped build-configuration helpers (`src/vexcl/util.hpp`), and proves
or refutes the stated properties of that code.

Modelling conventions:

* the numeric element type `T` of the C++ templates is modelled as `Int`
  (the kernels are algebraically identical for every numeric type; none of
  the checked properties concerns floating point rounding);
* OpenCL global buffers are modelled as total functions `Int → Int`; a
  buffer of extent `n` is only ever read on `[0, n)` by the embedded code,
  mirroring the guards of the kernels;
* local memory is uninitialized at kernel start, so computations that can
  read local slots no work item wrote (the fast interior kernel's staging
  gap) are modelled relative to an explicit parameter carrying the
  initial local-memory contents;
* a `for` loop accumulating into `sum` under a guard is embedded as a
  `Finset.sum` of the guarded summand over the loop's index interval;
* the distributed vector collaborator (external to this core) is modelled
  by a list of partition sizes `ps : List Nat` plus the underlying global
  sequence `x : Int → Int`; device `d`'s buffer holds the values at global
  indices `[partStart ps d, partStart ps d + partSize ps d)`, which is
  exactly the adjacency contract stated for the collaborator.
-/

namespace VexCL

/-! ## Scoped build configuration (`util.hpp`, `device_options`)

The per-device option stack is a `std::vector<std::string>`; its *back* is
the active entry.  We model the stack as a `List String` whose **head** is
the back of the vector: `push_back` is cons, `pop_back` is `tail` (and
`pop` on an empty stack is a no-op, exactly as in the code, which guards
`pop_back` with `!options[dev()].empty()`). -/

namespace device_options

/-- `device_options::push`: `options[dev()].push_back(str)`. -/
def push (st : List String) (s : String) : List String := s :: st

/-- `device_options::pop`: `if (!options[dev()].empty()) options[dev()].pop_back()`. -/
def pop (st : List String) : List String := st.tail

/-- `device_options::get`: `if (options[dev()].empty()) options[dev()].push_back("");
return options[dev()].back();` — returns the (possibly modified) stack
together with the returned reference's value. -/
def get (st : List String) : List String × String :=
  match st with
  | [] => ([""], "")
  | top :: rest => (top :: rest, top)

end device_options

/-! ## Capacity planner (`stencil<T>::init`, lines 367–386)

```cpp
wgs[d] = wgsize[context()];
uint smem = (... local mem available ...) / sizeof(T);
while (wgs[d] >= data.size() && wgs[d] + 2 * data.size() > smem)
    wgs[d] /= 2;
if (wgs[d] < data.size()) {
    fast_kernel[d] = false;
    wgs[d] = wgsize[context()];
} else {
    fast_kernel[d] = true;
}
```
`L` is the filter width `data.size()`, `smem` the available local-memory
capacity in elements, `w0` the default work-group size `wgsize[context()]`.
The `while` loop is embedded with explicit fuel; `w0` iterations always
suffice because each pass halves a positive value (see
`shrinkAux_spec`). -/

/-- The `while (L ≤ w && smem < w + 2L) w /= 2` loop, with fuel. -/
def shrinkAux (L smem : Nat) : Nat → Nat → Nat
  | 0, w => w
  | fuel + 1, w =>
      if L ≤ w ∧ smem < w + 2 * L then shrinkAux L smem fuel (w / 2) else w

/-- Work-group size after the shrinking loop of `stencil<T>::init`. -/
def shrinkWgs (L smem w0 : Nat) : Nat := shrinkAux L smem w0 w0

/-- The per-device strategy selection of `stencil<T>::init`: the chosen
work-group size together with the `fast_kernel[d]` flag. -/
def planDevice (L smem w0 : Nat) : Nat × Bool :=
  let w := shrinkWgs L smem w0
  if w < L then (w0, false) else (w, true)

/-! ## Compile-once guard (`stencil<T>::init` / `gstencil<T>::convolve`)

Both entry points loop over the devices and, for each one, test a
process-wide `compiled[...]` map before generating and building any
program source:

```cpp
if (!compiled[context()]) { ...build_sources...; compiled[context()] = true; }
```

For the plain filter the key is the context identity; for the generalized
filter the static maps live in `exdata<func>`, so the key is the pair
(context identity, transform).  `compileGuardRun cache keys` runs one such
loop: it returns the updated cache together with the list of keys for
which a compilation was actually performed, in order. -/

def compileGuardRun {K : Type} [DecidableEq K] : List K → List K → List K × List K
  | cache, [] => (cache, [])
  | cache, c :: rest =>
      if c ∈ cache then compileGuardRun cache rest
      else
        let r := compileGuardRun (c :: cache) rest
        (r.1, c :: r.2)

/-! ## The stencil descriptor (`stencil<T>`, `stencil<T>::init`)

```cpp
assert(data.size());
assert(center < data.size());
lhalo = center;
rhalo = data.size() - center - 1;
```
`lhalo`/`rhalo` are `int` fields assigned once in `init` and never written
again; they are modelled as derived values of the immutable descriptor.
The `size_t` subtraction `data.size() - center - 1` does not wrap exactly
when `center < data.size()` (the asserted precondition), in which case it
agrees with the `Int` expression used here. -/

structure Stencil where
  /-- `st` / `data`: the stencil weights, in order. -/
  data : List Int
  /-- `center`: the designated center index. -/
  center : Nat

/-- `lhalo = center`. -/
def Stencil.lhalo (S : Stencil) : Int := S.center

/-- `rhalo = data.size() - center - 1`. -/
def Stencil.rhalo (S : Stencil) : Int := (S.data.length : Int) - S.center - 1

/-- The construction preconditions asserted by `stencil<T>::init`. -/
@[reducible] def Stencil.Valid (S : Stencil) : Prop := S.center < S.data.length

/-- Weight at signed offset `k` from the center: the kernels do `s += lhalo`
and then read `s[k]` for `k ∈ [-lhalo, rhalo]`, i.e. `data[center + k]`. -/
def Stencil.wk (S : Stencil) (k : Int) : Int := S.data.getD (S.center + k).toNat 0

/-! ### The generalized stencil descriptor (`gstencil<T>`, `gstencil<T>::init`)

```cpp
assert(rows && cols);
assert(rows * cols == data.size());
assert(center < cols);
lhalo = center;
rhalo = cols - center - 1;
```
-/

structure GStencil where
  rows : Nat
  cols : Nat
  center : Nat
  /-- row-major weight matrix values. -/
  data : List Int

def GStencil.lhalo (G : GStencil) : Int := G.center

def GStencil.rhalo (G : GStencil) : Int := (G.cols : Int) - G.center - 1

@[reducible] def GStencil.Valid (G : GStencil) : Prop :=
  0 < G.rows ∧ 0 < G.cols ∧ G.rows * G.cols = G.data.length ∧ G.center < G.cols

/-- Weight matrix entry as the kernels read it: `s[idx]` for a nonnegative
flat index `idx` (always of the form `lhalo + j + k * cols`). -/
def GStencil.sAt (G : GStencil) (idx : Int) : Int := G.data.getD idx.toNat 0

/-! ## Distributed vector collaborator

`ps` is the list of per-device partition sizes (`x.part_size(d)`), `x` the
underlying global sequence.  `x(d)` — device `d`'s buffer — holds
`x (partStart ps d + j)` at local index `j ∈ [0, partSize ps d)`. -/

/-- Global index of the first element owned by device `d`. -/
def partStart (ps : List Nat) (d : Nat) : Int := ((ps.take d).sum : Nat)

/-- `x.part_size(d)`. -/
def partSize (ps : List Nat) (d : Nat) : Int := (ps.getD d 0 : Nat)

/-- Device `d`'s buffer view of the global sequence `x`. -/
def xpart (ps : List Nat) (x : Int → Int) (d : Nat) : Int → Int :=
  fun j => x (partStart ps d + j)

/-! ## The output blend policy shared by the interior kernels

```cpp
if (alpha)
    y[g_id] = alpha * y[g_id] + beta * sum;
else
    y[g_id] = beta * sum;
```
(`if (alpha)` on a numeric value tests `alpha != 0`). -/

def blendOut (alpha beta yold s : Int) : Int :=
  if alpha ≠ 0 then alpha * yold + beta * s else beta * s

/-! ## The fallback interior kernel (`conv_local_big`)

`conv_local_big` computes, for each `g_id < n`,

```cpp
real sum = 0;
for(int k = -lhalo; k <= rhalo; k++)
    if (g_id + k >= 0 && g_id + k < n)
        sum += s[k] * x[g_id + k];
```

followed by the blend.  The kernel is launched over
`[0, alignup(n, wgs)) ⊇ [0, n)` with every body guarded by `g_id < n`;
positions outside `[0, n)` are untouched.  The *fast* interior kernel
`conv_local`, which stages the window through local memory first, is
embedded separately below (`xbufStaged` / `conv_local`): its staging has a
gap and it does **not** always compute the same values as
`conv_local_big`. -/

def interiorSum (S : Stencil) (n : Int) (x : Int → Int) (g : Int) : Int :=
  ∑ k in Finset.Icc (-S.lhalo) S.rhalo,
    if 0 ≤ g + k ∧ g + k < n then S.wk k * x (g + k) else 0

def conv_local_big (S : Stencil) (n : Int) (x y : Int → Int)
    (alpha beta : Int) : Int → Int :=
  fun g =>
    if 0 ≤ g ∧ g < n then blendOut alpha beta (y g) (interiorSum S n x g) else y g

/-! ## The fast interior kernel (`conv_local`)

```cpp
if (g_id < n) {
    xbuf[l_id] = x[g_id];
    if (l_id < lhalo && g_id >= lhalo)
        xbuf[l_id - lhalo] = x[g_id - lhalo];
    if (l_id + rhalo < block_size || g_id + rhalo < n)
        xbuf[l_id + rhalo] = x[g_id + rhalo];
}
barrier(CLK_LOCAL_MEM_FENCE);
if (g_id < n) {
    real sum = 0;
    for(int k = -lhalo; k <= rhalo; k++)
        if (g_id + k >= 0 && g_id + k < n)
            sum += stencil[k] * xbuf[l_id + k];
    ...blend...
}
```

The launch over `[0, alignup(n, wgs))` consists of full groups of `wgs`
work items; the group containing `g_id` starts at `G = wgs * (g_id / wgs)`
and `l_id = g_id % wgs`.  Local memory is *uninitialized* at kernel start,
so the staged buffer is modelled relative to an explicit parameter
`loc : Int → Int` giving the group's initial slot contents: a slot keeps
`loc t` unless some work item of the group writes it.  Per slot `t`
(kernel index `xbuf[t]`, `t ∈ [-lhalo, wgs + rhalo)`), the possible
writers, each storing `x[G + t]`, are:

* work item `l_id = t` (first write), iff `0 ≤ t < wgs` and `G + t < n`;
* work item `l_id = t + lhalo` (left-halo write), iff `-lhalo ≤ t < 0`,
  `t + lhalo < wgs`, `G + t ≥ 0` (its `g_id ≥ lhalo`) and
  `G + t + lhalo < n` (its `g_id < n`);
* work item `l_id = t - rhalo` (right-halo write), iff
  `rhalo ≤ t < wgs + rhalo`, `G + t - rhalo < n` and
  `(t < wgs ∨ G + t < n)`.

Writers of one slot always store the same value, so the order of the
branches below is immaterial.  When `G + t ≥ n` the kernel's stored value
`x[g_id + rhalo]` is an out-of-range read of the input buffer; it is
modelled through the total function `x`, and the guarded sum below never
consumes such a slot (the read guard forces `G + t < n`).  The weight
staging `stencil[l_id] = s[l_id]` (unguarded, by items `l_id < L`) is
complete because the fast kernel is only selected when `wgs ≥ L`
(`planDevice`), and is modelled as complete. -/

def xbufStaged (S : Stencil) (n wgs : Int) (x : Int → Int)
    (loc : Int → Int) (G t : Int) : Int :=
  if 0 ≤ t ∧ t < wgs ∧ G + t < n then x (G + t)
  else if -S.lhalo ≤ t ∧ t < 0 ∧ t + S.lhalo < wgs
      ∧ 0 ≤ G + t ∧ G + t + S.lhalo < n then x (G + t)
  else if S.rhalo ≤ t ∧ t < wgs + S.rhalo ∧ G + t - S.rhalo < n
      ∧ (t < wgs ∨ G + t < n) then x (G + t)
  else loc t

/-- The fast interior kernel: like `conv_local_big` but reading every tap
from the staged local buffer of the work item's group.  `loc` maps a group
start to that group's uninitialized local-memory contents. -/
def conv_local (S : Stencil) (n wgs : Int) (x y : Int → Int)
    (loc : Int → Int → Int) (alpha beta : Int) : Int → Int :=
  fun g =>
    if 0 ≤ g ∧ g < n then
      blendOut alpha beta (y g)
        (∑ k in Finset.Icc (-S.lhalo) S.rhalo,
          if 0 ≤ g + k ∧ g + k < n then
            S.wk k * xbufStaged S n wgs x (loc (wgs * (g / wgs)))
              (wgs * (g / wgs)) (g % wgs + k)
          else 0)
    else y g

/-! ## Halo staging (`stencil<T>::convolve`, lines 411–426 and 460–472)

When `queue.size() > 1` and `lhalo + rhalo > 0`, the host buffer `hbuf`
(one slot of `rhalo + lhalo` entries per device) receives:

```cpp
if (d > 0 && rhalo > 0)                    // leading rhalo owned elements
    read x(d)[0, rhalo)          into hbuf[d*(rhalo+lhalo) + 0];
if (d + 1 < queue.size() && lhalo > 0)     // trailing lhalo owned elements
    read x(d)[part_size(d)-lhalo, part_size(d)) into hbuf[d*(rhalo+lhalo) + rhalo];
```

`hbuf` is value-initialized by `resize` at construction; entries never
written by the loop above are modelled as `0` (they are never read back).
`hbufAfterReads S ps x d j` is entry `j` of device `d`'s slot after the
read phase; the two `d > 0` / `d + 1 < queue.size()` guards already imply
`queue.size() > 1`, and the `0 < rhalo` / `0 < lhalo` conjuncts absorb the
`lhalo + rhalo > 0` guard. -/

def hbufAfterReads (S : Stencil) (ps : List Nat) (x : Int → Int)
    (d : Nat) : Int → Int :=
  fun j =>
    if 0 < d ∧ 0 < S.rhalo ∧ 0 ≤ j ∧ j < S.rhalo then
      xpart ps x d j
    else if d + 1 < ps.length ∧ 0 < S.lhalo ∧ S.rhalo ≤ j ∧ j < S.rhalo + S.lhalo then
      xpart ps x d (partSize ps d - S.lhalo + (j - S.rhalo))
    else 0

/-- Device `d`'s on-device halo buffer `dbuf[d]` after the write phase:

```cpp
if (d > 0 && lhalo > 0)                    // left-halo slot [0, lhalo)
    write hbuf[(d-1)*(rhalo+lhalo) + rhalo ...] into dbuf[d][0, lhalo);
if (d + 1 < queue.size() && rhalo > 0)     // right-halo slot [lhalo, lhalo+rhalo)
    write hbuf[(d+1)*(rhalo+lhalo) ...] into dbuf[d][lhalo, lhalo+rhalo);
```

`dbuf` is a fresh uninitialized device buffer; unwritten entries are
modelled as `0` (the boundary kernel only reads entries whose writing
condition held). -/
def dbufAfterWrites (S : Stencil) (ps : List Nat) (x : Int → Int)
    (d : Nat) : Int → Int :=
  fun i =>
    if 0 < d ∧ 0 < S.lhalo ∧ 0 ≤ i ∧ i < S.lhalo then
      hbufAfterReads S ps x (d - 1) (S.rhalo + i)
    else if d + 1 < ps.length ∧ 0 < S.rhalo ∧ S.lhalo ≤ i ∧ i < S.lhalo + S.rhalo then
      hbufAfterReads S ps x (d + 1) (i - S.lhalo)
    else 0

/-! ## The boundary kernel (`conv_remote`)

```cpp
global const real *xl = h + lhalo;
global const real *xr = h + lhalo;
s += lhalo;
if (g_id < lhalo) {
    real sum = 0;
    for(int k = -lhalo; k < 0; k++)
        if (g_id + k < 0)
            sum += s[k] * (has_left ? xl[g_id + k] : x[0]);
    y[g_id] += beta * sum;
}
if (g_id < rhalo) {
    real sum = 0;
    for(int k = 1; k <= rhalo; k++)
        if (g_id + k - rhalo >= 0)
            sum += s[k] * (has_right ? xr[g_id + k - rhalo] : x[n - 1]);
    y[n - rhalo + g_id] += beta * sum;
}
```

Note both corrections are unconditional `+=` updates on top of the
interior result (no `alpha` blend here), and the clamp replacement value
is the device's own first/last owned element. -/

def lsum (S : Stencil) (x h : Int → Int) (hasL : Bool) (g : Int) : Int :=
  ∑ k in Finset.Icc (-S.lhalo) (-1 : Int),
    if g + k < 0 then S.wk k * (if hasL then h (S.lhalo + g + k) else x 0) else 0

def rsum (S : Stencil) (n : Int) (x h : Int → Int) (hasR : Bool) (g : Int) : Int :=
  ∑ k in Finset.Icc (1 : Int) S.rhalo,
    if 0 ≤ g + k - S.rhalo then
      S.wk k * (if hasR then h (S.lhalo + g + k - S.rhalo) else x (n - 1))
    else 0

/-- The boundary kernel, launched over `[0, max(lhalo, rhalo))`; work item
`g` adds the left correction at `y[g]` (when `g < lhalo`) and the right
correction at `y[n - rhalo + g]` (when `g < rhalo`).  Per output index
`i`, at most one left and one right correction apply; the function below
applies both as one deterministic sum.  In the kernel the two updates are
unsynchronized read-modify-write `+=` on global memory performed by
*different* work items, so this determinization is a faithful account of
the kernel only when their target index sets `[0, lhalo)` and
`[n - rhalo, n)` are disjoint, i.e. when `lhalo + rhalo ≤ n`; every
theorem below invokes `conv_remote` only in that race-free regime. -/
def conv_remote (S : Stencil) (n : Int) (x h : Int → Int)
    (hasL hasR : Bool) (y : Int → Int) (beta : Int) : Int → Int :=
  fun i =>
    y i
      + (if 0 ≤ i ∧ i < S.lhalo then beta * lsum S x h hasL i else 0)
      + (if n - S.rhalo ≤ i ∧ i < n then
          beta * rsum S n x h hasR (i - (n - S.rhalo)) else 0)

/-! ## `stencil<T>::convolve`, per device

Phase A launches, on every device, the interior kernel selected by
`fast_kernel[d]` (`conv_local` when true, `conv_local_big` otherwise);
phase B (only when `lhalo + rhalo > 0`) performs the halo staging above
and then launches `conv_remote` on every device with
`has_left = (d > 0)` and `has_right = (d + 1 < queue.size())`.  Device
`d` only writes local indices `[0, partSize ps d)` of its own output
partition.

`deviceOut` gives device `d`'s output buffer for a call in which every
device uses the *fallback* interior kernel; `deviceOutDispatch` embeds
the full `fast_kernel[d]` dispatch, taking the per-device flag, the
per-device work-group size `wgs[d]`, and the per-device uninitialized
local-memory contents on which the fast kernel's output may depend
(`deviceOutDispatch_fallback` relates the two). -/
def deviceOut (S : Stencil) (ps : List Nat) (x y : Int → Int)
    (alpha beta : Int) (d : Nat) : Int → Int :=
  let n := partSize ps d
  let xs := xpart ps x d
  let ys := fun j => y (partStart ps d + j)
  let y1 := conv_local_big S n xs ys alpha beta
  if 0 < S.lhalo + S.rhalo then
    conv_remote S n xs (dbufAfterWrites S ps x d)
      (decide (0 < d)) (decide (d + 1 < ps.length)) y1 beta
  else y1

/-- `stencil<T>::convolve` with the `fast_kernel[d]` dispatch of the
interior phase: `fast d` and `wgs d` are the flag and work-group size
chosen by `init`'s capacity planner (so `fast d = true` only with
`wgs d ≥ L`), and `loc d G t` is the initial content of slot `t` of the
fast kernel's uninitialized local buffer for device `d`'s work group
starting at `G`. -/
def deviceOutDispatch (S : Stencil) (ps : List Nat) (x y : Int → Int)
    (alpha beta : Int) (fast : Nat → Bool) (wgs : Nat → Int)
    (loc : Nat → Int → Int → Int) (d : Nat) : Int → Int :=
  let n := partSize ps d
  let xs := xpart ps x d
  let ys := fun j => y (partStart ps d + j)
  let y1 := if fast d then conv_local S n (wgs d) xs ys (loc d) alpha beta
            else conv_local_big S n xs ys alpha beta
  if 0 < S.lhalo + S.rhalo then
    conv_remote S n xs (dbufAfterWrites S ps x d)
      (decide (0 < d)) (decide (d + 1 < ps.length)) y1 beta
  else y1

/-! ## Reference semantics (from the specification's words)

The specification describes the intended result as the clamped-edge
convolution combined with the `alpha`/`beta` blend policy: out-of-range
taps read the nearest owned boundary value of the *global* sequence. -/

/-- Clamp a global index into `[0, N)`. -/
def clampIdx (N i : Int) : Int := max 0 (min i (N - 1))

/-- The pure clamped convolution of the global sequence, per the spec:
`sum_k w_k * x[clamp(i + k)]`. -/
def clampedConv (S : Stencil) (N : Int) (x : Int → Int) (i : Int) : Int :=
  ∑ k in Finset.Icc (-S.lhalo) S.rhalo, S.wk k * x (clampIdx N (i + k))

theorem compileGuardRun_mem_fst {K : Type} [DecidableEq K] (cache keys : List K) (k : K) :
    k ∈ (compileGuardRun cache keys).1 ↔ k ∈ cache ∨ k ∈ keys := by
  induction keys generalizing cache with
  | nil => simp [compileGuardRun]
  | cons c rest ih =>
      by_cases hc : c ∈ cache
      · simp only [compileGuardRun, if_pos hc, ih, List.mem_cons]
        constructor
        · rintro (h | h)
          · exact Or.inl h
          · exact Or.inr (Or.inr h)
        · rintro (h | h | h)
          · exact Or.inl h
          · exact Or.inl (h ▸ hc)
          · exact Or.inr h
      · simp only [compileGuardRun, if_neg hc, ih, List.mem_cons]
        tauto

theorem compileGuardRun_count {K : Type} [DecidableEq K] (cache keys : List K) (k : K) :
    (compileGuardRun cache keys).2.countP (fun a => decide (a = k))
      = if k ∉ cache ∧ k ∈ keys then 1 else 0 := by
  induction keys generalizing cache with
  | nil => simp [compileGuardRun]
  | cons c rest ih =>
      by_cases hc : c ∈ cache
      · rw [compileGuardRun, if_pos hc, ih]
        by_cases hk : k ∈ cache
        · simp [hk]
        · have hkc : k ≠ c := fun h => hk (h ▸ hc)
          simp [hk, hkc, List.mem_cons]
      · rw [compileGuardRun, if_neg hc]
        simp only [List.countP_cons, ih]
        by_cases hkc : k = c
        · subst hkc
          simp [hc, List.mem_cons]
        · have hmem : (k ∈ c :: cache) ↔ k ∈ cache := by
            simp [List.mem_cons, hkc]
          have hck : c ≠ k := fun h => hkc h.symm
          simp only [hmem]
          by_cases hk : k ∈ cache
          · simp [hk, hkc, hck]
          · by_cases hr : k ∈ rest <;> simp [hk, hr, hkc, hck, List.mem_cons]

theorem compileGuardRun_none {K : Type} [DecidableEq K] (cache keys : List K)
    (h : ∀ k ∈ keys, k ∈ cache) : (compileGuardRun cache keys).2 = [] := by
  induction keys generalizing cache with
  | nil => rfl
  | cons c rest ih =>
      rw [compileGuardRun, if_pos (h c (List.mem_cons_self c rest))]
      exact ih cache fun k hk => h k (List.mem_cons_of_mem c hk)

/-- Loop characterization of `shrinkAux`: with enough fuel (and a nonempty
filter, as asserted in `init`), the loop result is `w / 2^m` where `m`
counts the iterations, every intermediate value satisfied the loop
condition, and the final value does not. -/
theorem shrinkAux_spec (L smem : Nat) :
    ∀ fuel w, w ≤ fuel →
      ∃ m : Nat,
        (∀ j < m, L ≤ w / 2 ^ j ∧ smem < w / 2 ^ j + 2 * L) ∧
        ¬(L ≤ w / 2 ^ m ∧ smem < w / 2 ^ m + 2 * L) ∧
        shrinkAux L smem fuel w = w / 2 ^ m := by
  intro fuel
  induction fuel with
  | zero =>
      intro w hw
      refine ⟨0, by omega, ?_, by simp [shrinkAux]⟩
      simp only [pow_zero, Nat.div_one]
      omega
  | succ fuel ih =>
      intro w hw
      by_cases hc : L ≤ w ∧ smem < w + 2 * L
      · have hw2 : w / 2 ≤ fuel := by omega
        obtain ⟨m, hall, hstop, hval⟩ := ih (w / 2) hw2
        refine ⟨m + 1, ?_, ?_, ?_⟩
        · intro j hj
          match j with
          | 0 => simpa using hc
          | j + 1 =>
              have := hall j (by omega)
              rw [Nat.div_div_eq_div_mul, ← pow_succ'] at this
              exact this
        · rw [show w / 2 ^ (m + 1) = w / 2 / 2 ^ m by
            rw [Nat.div_div_eq_div_mul, ← pow_succ']]
          exact hstop
        · rw [shrinkAux, if_pos hc, hval, Nat.div_div_eq_div_mul, ← pow_succ']
      · exact ⟨0, by omega, by simpa using hc, by rw [shrinkAux, if_neg hc]; simp⟩

/-! ## The staging step as claim C3 words it

Modelled from the spec (§4.4), for comparison against `hbufAfterReads`:
"for each device `d` with a right neighbor, copy its trailing `right_halo`
owned elements into the staging buffer; for each device `d` with a left
neighbor, copy its leading `left_halo` owned elements likewise", with a
slot layout of a leading-fragment region of `lhalo` entries followed by a
trailing-fragment region of `rhalo` entries. -/
def hbufClaimed (S : Stencil) (ps : List Nat) (x : Int → Int)
    (d : Nat) : Int → Int :=
  fun j =>
    if 0 < d ∧ 0 < S.lhalo ∧ 0 ≤ j ∧ j < S.lhalo then
      xpart ps x d j
    else if d + 1 < ps.length ∧ 0 < S.rhalo ∧ S.lhalo ≤ j ∧ j < S.lhalo + S.rhalo then
      xpart ps x d (partSize ps d - S.rhalo + (j - S.lhalo))
    else 0

/-! ## The generalized stencil kernels (`gstencil<T>::convolve`)

The generated `conv_local` computes, for `lhalo ≤ g_id` and
`g_id + rhalo < n` (interior positions only; every tap is then in range
and the local staging supplies the plain `x` values):

```cpp
real srow = 0;
for(int k = 0; k < rows; k++) {
    real scol = 0;
    for(int j = -lhalo; j <= rhalo; j++)
        scol += S[lhalo + j + k * cols] * xbuf[l_id + j];
    srow += FUNC(scol);        // FUNC = func::value()
}
```

followed by the `alpha`/`beta` blend.  The selected transform enters the
generated text as `func::value()`, so the kernel semantics are
parameterized by an interpretation `f : Int → Int` of that device-side
function name. -/

def gRowSum (G : GStencil) (xb : Int → Int) (g : Int) (k : Nat) : Int :=
  ∑ j in Finset.Icc (-G.lhalo) G.rhalo,
    G.sAt (G.lhalo + j + (k : Int) * (G.cols : Int)) * xb (g + j)

/-- Sum over the rows of the transformed per-row windowed sums, with `t`
interpreting the transform name spliced into the generated source at that
site. -/
def gsum (G : GStencil) (t : Int → Int) (xb : Int → Int) (g : Int) : Int :=
  ∑ k in Finset.range G.rows, t (gRowSum G xb g k)

def gconv_local (G : GStencil) (f : Int → Int) (n : Int) (x y : Int → Int)
    (alpha beta : Int) : Int → Int :=
  fun g =>
    if 0 ≤ g ∧ G.lhalo ≤ g ∧ g + G.rhalo < n then
      blendOut alpha beta (y g) (gsum G f x g)
    else y g

/-- Left-edge local staging of the generalized boundary kernel (after
`xbuf += lhalo`, `xrem += lhalo`; work item `g < lhalo` writes
`xbuf[g] = xloc[g]`, `xbuf[g + rhalo] = xloc[g + rhalo]`, and
`xbuf[g - lhalo] = has_left ? xrem[g - lhalo] : xloc[0]` where
`xrem[g - lhalo]` is halo-buffer entry `g` of the left-halo slot).
Entries never staged are modelled as `0`; the overlapping staged regions
always receive equal values. -/
def gxbufL (G : GStencil) (x xrm : Int → Int) (hasL : Bool) : Int → Int :=
  fun t =>
    if 0 ≤ t ∧ t < G.lhalo then x t
    else if G.rhalo ≤ t ∧ t < G.rhalo + G.lhalo then x t
    else if -G.lhalo ≤ t ∧ t < 0 then (if hasL then xrm (G.lhalo + t) else x 0)
    else 0

/-- Right-edge local staging of the generalized boundary kernel (work item
`g < rhalo` writes `xbuf[g] = xloc[n - rhalo + g]`,
`xbuf[g - lhalo] = xloc[n - rhalo + g - lhalo]`, and
`xbuf[g + rhalo] = has_right ? xrem[g] : xloc[n - 1]` where `xrem[g]` is
halo-buffer entry `lhalo + g`, the right-halo slot). -/
def gxbufR (G : GStencil) (n : Int) (x xrm : Int → Int) (hasR : Bool) : Int → Int :=
  fun t =>
    if 0 ≤ t ∧ t < G.rhalo then x (n - G.rhalo + t)
    else if -G.lhalo ≤ t ∧ t < G.rhalo - G.lhalo then x (n - G.rhalo + t)
    else if G.rhalo ≤ t ∧ t < 2 * G.rhalo then
      (if hasR then xrm (G.lhalo + (t - G.rhalo)) else x (n - 1))
    else 0

/-- The generalized boundary kernel `conv_remote`: it recomputes the first
`lhalo` and the last `rhalo` output elements with the full `alpha`/`beta`
blend, staging each edge window in local memory between barriers.  The
generated source applies `func::value()` to each row sum of the *left*
edge, but the literal built-in `sin` to each row sum of the *right* edge
(`srow += sin(scol);` in the source), so the right-edge computation is
interpreted under `sinT`, the meaning of the device-side name `sin`,
rather than under the selected transform `f`. -/
def gconv_remote (G : GStencil) (f sinT : Int → Int) (n : Int)
    (x xrm y : Int → Int) (hasL hasR : Bool) (alpha beta : Int) : Int → Int :=
  fun i =>
    let yLeft : Int → Int := fun i0 =>
      if 0 ≤ i0 ∧ i0 < G.lhalo then
        blendOut alpha beta (y i0) (gsum G f (gxbufL G x xrm hasL) i0)
      else y i0
    if n - G.rhalo ≤ i ∧ i < n then
      blendOut alpha beta (yLeft i)
        (gsum G sinT (gxbufR G n x xrm hasR) (i - (n - G.rhalo)))
    else yLeft i

/-- Modelled from the spec: the generalized boundary kernel with the
*selected* transform applied to every row sum at every edge — what claim
C4 asserts the code does (spec §4.6(b)). -/
def gconv_remote_claimed (G : GStencil) (f : Int → Int) (n : Int)
    (x xrm y : Int → Int) (hasL hasR : Bool) (alpha beta : Int) : Int → Int :=
  gconv_remote G f f n x xrm y hasL hasR alpha beta

/-! ## Program source generation and build options (`util.hpp`, C7)

`util.hpp` declares

```cpp
inline std::string standard_kernel_header(const cl::Device &dev) {
    return std::string("#if defined(cl_khr_fp64)\n ... #endif\n")
         + get_program_header(dev);
}
```

and `build_sources` builds with
`(options + " " + get_compile_options(device[0])).c_str()`, both reading
the per-device stacks at call time. -/

def opencl_fp64_pragma : String :=
  "#if defined(cl_khr_fp64)\n#  pragma OPENCL EXTENSION cl_khr_fp64: enable\n#elif defined(cl_amd_fp64)\n#  pragma OPENCL EXTENSION cl_amd_fp64: enable\n#endif\n"

/-- `standard_kernel_header(dev)` as a function of the device's
program-header stack. -/
def standard_kernel_header (hdr : List String) : String :=
  opencl_fp64_pragma ++ (device_options.get hdr).2

/-- The option string `build_sources` passes to `program.build`, as a
function of its `options` argument and the first device's compile-flags
stack, read at call time. -/
def build_sources_options (options : String) (flags : List String) : String :=
  options ++ " " ++ (device_options.get flags).2

/-- In `stencil<T>::init` the program text starts with
`source << standard_kernel_header << "typedef " ...`.  Since `util.hpp`
defines `standard_kernel_header` as a *function* (of the device), the
name is not a string here: the `ostream` left-shift resolves by converting
the function pointer to `bool` (the only viable overload), which prints
`"1"`.  The header function is never invoked in `stencil<T>::init`, so the
program-header stack is not read, and no header text is prepended. -/
def streamedFunctionPointer : String := "1"

/-- The remainder of the generated program text of `stencil<T>::init`
(everything streamed after `standard_kernel_header`), for element type
name `tname` (`type_name<T>()`) and size type name `szname`
(`type_name<size_t>()`). -/
def stencilKernelBody (tname szname : String) : String :=
  "typedef "
    ++ tname
    ++ " real;\nkernel void conv_local(\n    "
    ++ szname
    ++ " n,\n    int lhalo,\n    int rhalo,\n    global const real *x,\n    global const real *s,\n    global real *y,\n    real alpha, real beta,\n    local real *loc_buf\n    )\n\x7b\n    local real *stencil = loc_buf;\n    local real *xbuf    = loc_buf + lhalo + rhalo + 1 + lhalo;\n    size_t block_size = get_local_size(0);\n"
    ++ "    long   g_id = get_global_id(0);\n    int    l_id = get_local_id(0);\n    if (l_id < lhalo + rhalo + 1)\n        stencil[l_id] = s[l_id];\n    stencil += lhalo;\n    if (g_id < n) \x7b\n        xbuf[l_id] = x[g_id];\n        if (l_id < lhalo && g_id >= lhalo)\n            xbuf[l_id - lhalo] = x[g_id - lhalo];\n"
    ++ "        if (l_id + rhalo < block_size || g_id + rhalo < n)\n            xbuf[l_id + rhalo] = x[g_id + rhalo];\n    \x7d\n    barrier(CLK_LOCAL_MEM_FENCE);\n    if (g_id < n) \x7b\n        real sum = 0;\n        for(int k = -lhalo; k <= rhalo; k++)\n            if (g_id + k >= 0 && g_id + k < n)\n                sum += stencil[k] * xbuf[l_id + k];\n"
    ++ "        if (alpha)\n            y[g_id] = alpha * y[g_id] + beta * sum;\n        else\n            y[g_id] = beta * sum;\n    \x7d\n\x7d\nkernel void conv_local_big(\n    "
    ++ szname
    ++ " n,\n    int lhalo,\n    int rhalo,\n    global const real *x,\n    global const real *s,\n    global real *y,\n    real alpha, real beta\n    )\n\x7b\n    long g_id = get_global_id(0);\n    s += lhalo;\n    if (g_id < n) \x7b\n        real sum = 0;\n        for(int k = -lhalo; k <= rhalo; k++)\n"
    ++ "            if (g_id + k >= 0 && g_id + k < n)\n                sum += s[k] * x[g_id + k];\n        if (alpha)\n            y[g_id] = alpha * y[g_id] + beta * sum;\n        else\n            y[g_id] = beta * sum;\n    \x7d\n\x7d\nkernel void conv_remote(\n    "
    ++ szname
    ++ " n,\n    char has_left,\n    char has_right,\n    int lhalo,\n    int rhalo,\n    global const real *x,\n    global const real *h,\n    global const real *s,\n    global real *y,\n    real beta\n    )\n\x7b\n    long g_id = get_global_id(0);\n    global const real *xl = h + lhalo;\n    global const real *xr = h + lhalo;\n"
    ++ "    s += lhalo;\n    if (g_id < lhalo) \x7b\n        real sum = 0;\n        for(int k = -lhalo; k < 0; k++)\n            if (g_id + k < 0)\n                sum += s[k] * (has_left ? xl[g_id + k] : x[0]);\n        y[g_id] += beta * sum;\n    \x7d\n    if (g_id < rhalo) \x7b\n        real sum = 0;\n"
    ++ "        for(int k = 1; k <= rhalo; k++)\n            if (g_id + k - rhalo >= 0)\n                sum += s[k] * (has_right ? xr[g_id + k - rhalo] : x[n - 1]);\n        y[n - rhalo + g_id] += beta * sum;\n    \x7d\n\x7d\n"

/-- The full program source generated by `stencil<T>::init` and handed to
`build_sources`: the streamed-function-pointer artifact followed by the
kernel text.  It does *not* depend on the program-header stack. -/
def stencilProgramSource (tname szname : String) : String :=
  streamedFunctionPointer ++ stencilKernelBody tname szname

/-! ## Concrete instances used by the closed theorems below -/

/-- The discrete Laplacian filter of the spec's scenario: weights
`[1, -2, 1]`, center `1`. -/
def lap : Stencil := ⟨[1, -2, 1], 1⟩

/-- The scenario input `[1, 2, 4, 8, 16]` (arbitrary outside `[0, 5)`,
never read there). -/
def x5 : Int → Int := fun i => [1, 2, 4, 8, 16].getD i.toNat 0

/-- A zero prior output. -/
def zf : Int → Int := fun _ => 0

/-- A non-trivial prior output, to exercise the `alpha` blend. -/
def yp : Int → Int := fun i => 100 * i

/-- An asymmetric filter (`lhalo = 0`, `rhalo = 2`) used to separate the
two halo widths in claim C3. -/
def s3 : Stencil := ⟨[1, 2, 3], 0⟩

/-- A globally defined input with pairwise distinct values on `[0, 6)`. -/
def xTen : Int → Int := fun i => 10 * (i + 1)

/-- A one-row generalized stencil (`rows = 1`, `cols = 3`, `center = 1`,
weights `[1, 1, 1]`). -/
def G4 : GStencil := ⟨1, 3, 1, [1, 1, 1]⟩

/-- A concrete interpretation of the selected transform's device-side name
(`func::value()`), chosen to differ from `sin4` everywhere relevant. -/
def f4 : Int → Int := fun t => t + 100

/-- A concrete interpretation of the device-side builtin name `sin`. -/
def sin4 : Int → Int := fun _ => 0

/-- A three-element input `[1, 2, 4]` for the generalized scenario. -/
def x3 : Int → Int := fun i => [1, 2, 4].getD i.toNat 0

/-- A filter with `lhalo = 2`, `rhalo = 0` (weights `[1, 1, 1]`, center
`2`), exhibiting the fast kernel's staging gap. -/
def sGap : Stencil := ⟨[1, 1, 1], 2⟩

/-- The global input `x i = i + 1`. -/
def xid : Int → Int := fun i => i + 1

/-- Uninitialized local memory whose every slot happens to hold `999`. -/
def locA : Nat → Int → Int → Int := fun _ _ _ => 999

/-- Uninitialized local memory whose every slot happens to hold `0`. -/
def locB : Nat → Int → Int → Int := fun _ _ _ => 0

/-! ## Partition arithmetic -/

theorem partStart_nonneg (ps : List Nat) (d : Nat) : 0 ≤ partStart ps d :=
  Int.ofNat_nonneg _

theorem partSize_nonneg (ps : List Nat) (d : Nat) : 0 ≤ partSize ps d :=
  Int.ofNat_nonneg _

theorem take_sum_succ (ps : List Nat) (d : Nat) (hd : d < ps.length) :
    (ps.take (d + 1)).sum = (ps.take d).sum + ps.getD d 0 := by
  induction ps generalizing d with
  | nil => simp at hd
  | cons p rest ih =>
      match d with
      | 0 => simp
      | d + 1 =>
          have hd' : d < rest.length := by simpa using hd
          simp only [List.take_succ_cons, List.sum_cons, List.getD_cons_succ,
            ih d hd']
          omega

theorem partStart_succ (ps : List Nat) (d : Nat) (hd : d < ps.length) :
    partStart ps (d + 1) = partStart ps d + partSize ps d := by
  simp only [partStart, partSize, take_sum_succ ps d hd]
  push_cast
  ring

theorem partStart_add_le (ps : List Nat) (d : Nat) (hd : d < ps.length) :
    partStart ps d + partSize ps d ≤ ((ps.sum : Nat) : Int) := by
  rw [← partStart_succ ps d hd]
  have h : (ps.take (d + 1)).sum ≤ ps.sum := by
    conv_rhs => rw [← List.take_append_drop (d + 1) ps]
    rw [List.sum_append]
    omega
  simpa [partStart] using Int.ofNat_le.mpr h

theorem partStart_last (ps : List Nat) (d : Nat) (hd : d + 1 = ps.length) :
    partStart ps d + partSize ps d = ((ps.sum : Nat) : Int) := by
  rw [← partStart_succ ps d (by omega), partStart, hd, List.take_length]

theorem getD_mem (ps : List Nat) (d : Nat) (hd : d < ps.length) :
    ps.getD d 0 ∈ ps := by
  rw [List.getD_eq_getElem ps 0 hd]
  exact List.getElem_mem hd

theorem partSize_ge (S : Stencil) (hS : S.Valid) (ps : List Nat) (d : Nat)
    (hd : d < ps.length)
    (hps : ∀ p ∈ ps, S.lhalo + S.rhalo ≤ (p : Int)) :
    S.lhalo ≤ partSize ps d ∧ S.rhalo ≤ partSize ps d := by
  have h := hps _ (getD_mem ps d hd)
  have hl : (0 : Int) ≤ S.lhalo := Int.ofNat_nonneg _
  have hr : (0 : Int) ≤ S.rhalo := by
    have hc : S.center < S.data.length := hS
    simp only [Stencil.rhalo]
    omega
  simp only [partSize]
  omega

theorem partStart_ge_size (ps : List Nat) (d : Nat) (hd0 : 0 < d)
    (hd : d < ps.length) : partSize ps (d - 1) ≤ partStart ps d := by
  have h : d - 1 + 1 = d := by omega
  have := partStart_succ ps (d - 1) (by omega)
  rw [h] at this
  rw [this]
  have := partStart_nonneg ps (d - 1)
  omega

theorem lhalo_nonneg (S : Stencil) : 0 ≤ S.lhalo := Int.ofNat_nonneg _

theorem rhalo_nonneg (S : Stencil) (hS : S.Valid) : 0 ≤ S.rhalo := by
  have : S.center < S.data.length := hS
  simp only [Stencil.rhalo]
  omega

/-! ## Where the staged halo values come from

Composing the two staging steps: the left-halo slot of `dbuf[d]` holds the
global values just left of device `d`'s partition, the right-halo slot the
global values just right of it. -/

theorem dbuf_left (S : Stencil) (ps : List Nat) (x : Int → Int) (d : Nat)
    (hd0 : 0 < d) (hd : d < ps.length) (i : Int) (hi : 0 ≤ i ∧ i < S.lhalo) :
    dbufAfterWrites S ps x d i = x (partStart ps d - S.lhalo + i) := by
  have hl : 0 < S.lhalo := by omega
  rw [dbufAfterWrites, if_pos ⟨hd0, hl, hi.1, hi.2⟩]
  have hcond : ¬(0 < d - 1 ∧ 0 < S.rhalo ∧ 0 ≤ S.rhalo + i ∧ S.rhalo + i < S.rhalo) := by
    omega
  have hd1 : d - 1 + 1 < ps.length := by omega
  rw [hbufAfterReads, if_neg hcond,
    if_pos ⟨hd1, hl, by omega, by omega⟩]
  have hstart := partStart_succ ps (d - 1) (by omega)
  rw [show d - 1 + 1 = d by omega] at hstart
  rw [xpart]
  congr 1
  rw [hstart]
  ring

theorem dbuf_right (S : Stencil) (ps : List Nat) (x : Int → Int) (d : Nat)
    (hd : d + 1 < ps.length) (i : Int) (hi : 0 ≤ i ∧ i < S.rhalo) :
    dbufAfterWrites S ps x d (S.lhalo + i)
      = x (partStart ps d + partSize ps d + i) := by
  have hr : 0 < S.rhalo := by omega
  have hl := lhalo_nonneg S
  have hcond : ¬(0 < d ∧ 0 < S.lhalo ∧ 0 ≤ S.lhalo + i ∧ S.lhalo + i < S.lhalo) := by
    omega
  rw [dbufAfterWrites, if_neg hcond, if_pos ⟨hd, hr, by omega, by omega⟩]
  rw [hbufAfterReads, if_pos ⟨by omega, hr, by omega, by omega⟩]
  have hstart := partStart_succ ps d (by omega)
  rw [xpart]
  congr 1
  rw [hstart]
  ring

/-! ## Decomposing one output value into interior plus corrections -/

theorem blendOut_split (alpha beta yold s : Int) :
    blendOut alpha beta yold s
      = (if alpha ≠ 0 then alpha * yold else 0) + beta * s := by
  rw [blendOut]
  by_cases h : alpha ≠ 0 <;> simp [h]

/-- The guarded left correction, extended to the full tap interval: taps
`k ≥ 0` never satisfy `g + k < 0`, and positions `g ≥ lhalo` have no such
tap either, so the `g < lhalo` launch guard and the `[-lhalo, -1]` loop
interval can both be relaxed. -/
theorem lsum_extend (S : Stencil) (x h : Int → Int) (hasL : Bool) (g : Int)
    (hg : 0 ≤ g) (hr : 0 ≤ S.rhalo) :
    (if 0 ≤ g ∧ g < S.lhalo then lsum S x h hasL g else 0)
      = ∑ k in Finset.Icc (-S.lhalo) S.rhalo,
          (if g + k < 0 then S.wk k * (if hasL then h (S.lhalo + g + k) else x 0)
           else 0) := by
  by_cases hguard : 0 ≤ g ∧ g < S.lhalo
  · rw [if_pos hguard, lsum]
    refine Finset.sum_subset (Finset.Icc_subset_Icc_right (by omega)) ?_
    intro k hk hk'
    simp only [Finset.mem_Icc] at hk hk'
    have : 0 ≤ k := by omega
    rw [if_neg (by omega)]
  · rw [if_neg hguard]
    refine (Finset.sum_eq_zero ?_).symm
    intro k hk
    simp only [Finset.mem_Icc] at hk
    rw [if_neg (by omega)]

/-- The guarded right correction, likewise: evaluated at work item
`g = j - (n - rhalo)`, its terms live at global offset `j + k` with
`n ≤ j + k`. -/
theorem rsum_extend (S : Stencil) (n : Int) (x h : Int → Int) (hasR : Bool)
    (j : Int) (hj : 0 ≤ j ∧ j < n) (hl : 0 ≤ S.lhalo) :
    (if n - S.rhalo ≤ j ∧ j < n then rsum S n x h hasR (j - (n - S.rhalo)) else 0)
      = ∑ k in Finset.Icc (-S.lhalo) S.rhalo,
          (if n ≤ j + k then
            S.wk k * (if hasR then h (S.lhalo + (j + k - n)) else x (n - 1))
           else 0) := by
  by_cases hguard : n - S.rhalo ≤ j ∧ j < n
  · rw [if_pos hguard]
    calc rsum S n x h hasR (j - (n - S.rhalo))
        = ∑ k in Finset.Icc (1 : Int) S.rhalo,
            (if n ≤ j + k then
              S.wk k * (if hasR then h (S.lhalo + (j + k - n)) else x (n - 1))
             else 0) := by
          rw [rsum]
          refine Finset.sum_congr rfl ?_
          intro k _
          have harg : S.lhalo + (j - (n - S.rhalo)) + k - S.rhalo
              = S.lhalo + (j + k - n) := by ring
          rw [harg]
          by_cases hc : n ≤ j + k
          · rw [if_pos (by omega), if_pos hc]
          · rw [if_neg (by omega), if_neg hc]
      _ = ∑ k in Finset.Icc (-S.lhalo) S.rhalo,
            (if n ≤ j + k then
              S.wk k * (if hasR then h (S.lhalo + (j + k - n)) else x (n - 1))
             else 0) := by
          refine Finset.sum_subset (Finset.Icc_subset_Icc_left (by omega)) ?_
          intro k hk hk'
          simp only [Finset.mem_Icc] at hk hk'
          have : k ≤ 0 := by omega
          rw [if_neg (by omega)]
  · rw [if_neg hguard]
    refine (Finset.sum_eq_zero ?_).symm
    intro k hk
    simp only [Finset.mem_Icc] at hk
    rw [if_neg (by omega)]

theorem clampIdx_of_mem (N i : Int) (h0 : 0 ≤ i) (h1 : i ≤ N - 1) :
    clampIdx N i = i := by
  rw [clampIdx, min_eq_left h1, max_eq_right h0]

theorem clampIdx_of_neg (N i : Int) (h : i < 0) : clampIdx N i = 0 := by
  rw [clampIdx, max_eq_left (le_trans (min_le_left _ _) (by omega))]

theorem clampIdx_of_ge (N i : Int) (hN : 1 ≤ N) (h : N - 1 ≤ i) :
    clampIdx N i = N - 1 := by
  rw [clampIdx, min_eq_right h, max_eq_right (by omega)]

/-- Per tap `k`, the interior contribution plus the (at most one) boundary
correction for output `j` of device `d` together equal the corresponding
term of the clamped global convolution. -/
theorem tap_eq (S : Stencil) (hS : S.Valid) (ps : List Nat) (x : Int → Int)
    (d : Nat) (hd : d < ps.length)
    (hps : ∀ p ∈ ps, S.lhalo + S.rhalo ≤ (p : Int))
    (j k : Int) (hj : 0 ≤ j ∧ j < partSize ps d)
    (hk : -S.lhalo ≤ k ∧ k ≤ S.rhalo) :
    (if 0 ≤ j + k ∧ j + k < partSize ps d then S.wk k * xpart ps x d (j + k) else 0)
      + (if j + k < 0 then
          S.wk k * (if 0 < d then dbufAfterWrites S ps x d (S.lhalo + j + k)
                    else xpart ps x d 0)
         else 0)
      + (if partSize ps d ≤ j + k then
          S.wk k * (if d + 1 < ps.length then
                      dbufAfterWrites S ps x d (S.lhalo + (j + k - partSize ps d))
                    else xpart ps x d (partSize ps d - 1))
         else 0)
      = S.wk k * x (clampIdx ((ps.sum : Nat) : Int) (partStart ps d + j + k)) := by
  have hl0 := lhalo_nonneg S
  have hr0 := rhalo_nonneg S hS
  have hoN := partStart_add_le ps d hd
  have ho0 := partStart_nonneg ps d
  by_cases hneg : j + k < 0
  · have hl1 : 0 < S.lhalo := by omega
    rw [if_neg (show ¬(0 ≤ j + k ∧ j + k < partSize ps d) by omega),
      if_neg (show ¬(partSize ps d ≤ j + k) by omega),
      if_pos hneg, zero_add, add_zero]
    by_cases hd0 : 0 < d
    · rw [if_pos hd0, dbuf_left S ps x d hd0 hd (S.lhalo + j + k) ⟨by omega, by omega⟩]
      have hge : S.lhalo ≤ partStart ps d := by
        have h1 := partStart_ge_size ps d hd0 hd
        have h2 := (partSize_ge S hS ps (d - 1) (by omega) hps).1
        omega
      rw [clampIdx_of_mem _ _ (by omega) (by omega),
        show partStart ps d - S.lhalo + (S.lhalo + j + k) = partStart ps d + j + k
          from by ring]
    · rw [if_neg hd0]
      have hdz : d = 0 := by omega
      subst hdz
      have hps0 : partStart ps 0 = 0 := by simp [partStart]
      rw [xpart, clampIdx_of_neg _ _ (by omega),
        show partStart ps 0 + 0 = 0 from by omega]
  · by_cases hbig : partSize ps d ≤ j + k
    · have hr1 : 0 < S.rhalo := by omega
      rw [if_neg (show ¬(0 ≤ j + k ∧ j + k < partSize ps d) by omega),
        if_neg (show ¬(j + k < 0) by omega), if_pos hbig, zero_add, zero_add]
      by_cases hd1 : d + 1 < ps.length
      · rw [if_pos hd1,
          dbuf_right S ps x d hd1 (j + k - partSize ps d) ⟨by omega, by omega⟩]
        have hsucc := partStart_succ ps d hd
        have hnext := (partSize_ge S hS ps (d + 1) hd1 hps).2
        have hNle := partStart_add_le ps (d + 1) hd1
        rw [clampIdx_of_mem _ _ (by omega) (by omega),
          show partStart ps d + partSize ps d + (j + k - partSize ps d)
              = partStart ps d + j + k from by ring]
      · rw [if_neg hd1]
        have hlast := partStart_last ps d (by omega)
        rw [xpart, clampIdx_of_ge _ _ (by omega) (by omega),
          show partStart ps d + (partSize ps d - 1) = ((ps.sum : Nat) : Int) - 1
            from by omega]
    · rw [if_pos (show 0 ≤ j + k ∧ j + k < partSize ps d by omega),
        if_neg hneg, if_neg hbig, add_zero, add_zero]
      rw [xpart, clampIdx_of_mem _ _ (by omega) (by omega),
        show partStart ps d + (j + k) = partStart ps d + j + k from by ring]

/-- **Master correctness statement** for the fallback path of
`stencil<T>::convolve` (every device on `conv_local_big`): provided every
partition is at least as long as the *combined* halo width — which keeps
the boundary kernel's two `+=` corrections on disjoint output indices, so
`conv_remote`'s determinization is exact — every output element of every
device equals the `alpha`/`beta` blend of its prior value with the
clamped convolution of the *global* input sequence. -/
theorem deviceOut_correct (S : Stencil) (hS : S.Valid) (ps : List Nat)
    (x y : Int → Int) (alpha beta : Int)
    (hps : ∀ p ∈ ps, S.lhalo + S.rhalo ≤ (p : Int))
    (d : Nat) (hd : d < ps.length)
    (j : Int) (hj : 0 ≤ j ∧ j < partSize ps d) :
    deviceOut S ps x y alpha beta d j
      = (if alpha ≠ 0 then alpha * y (partStart ps d + j) else 0)
        + beta * clampedConv S ((ps.sum : Nat) : Int) x (partStart ps d + j) := by
  have hl0 := lhalo_nonneg S
  have hr0 := rhalo_nonneg S hS
  have key : interiorSum S (partSize ps d) (xpart ps x d) j
      + (if 0 ≤ j ∧ j < S.lhalo then
          lsum S (xpart ps x d) (dbufAfterWrites S ps x d) (decide (0 < d)) j
         else 0)
      + (if partSize ps d - S.rhalo ≤ j ∧ j < partSize ps d then
          rsum S (partSize ps d) (xpart ps x d) (dbufAfterWrites S ps x d)
            (decide (d + 1 < ps.length)) (j - (partSize ps d - S.rhalo))
         else 0)
      = clampedConv S ((ps.sum : Nat) : Int) x (partStart ps d + j) := by
    rw [lsum_extend S (xpart ps x d) (dbufAfterWrites S ps x d)
        (decide (0 < d)) j hj.1 hr0,
      rsum_extend S (partSize ps d) (xpart ps x d) (dbufAfterWrites S ps x d)
        (decide (d + 1 < ps.length)) j hj hl0,
      interiorSum, clampedConv, ← Finset.sum_add_distrib, ← Finset.sum_add_distrib]
    refine Finset.sum_congr rfl ?_
    intro k hk
    simp only [Finset.mem_Icc] at hk
    simp only [decide_eq_true_eq]
    exact tap_eq S hS ps x d hd hps j k hj hk
  by_cases hhalo : 0 < S.lhalo + S.rhalo
  · rw [deviceOut, if_pos hhalo]
    simp only [conv_remote, conv_local_big]
    rw [if_pos hj, blendOut_split]
    have hL : (if 0 ≤ j ∧ j < S.lhalo then
          beta * lsum S (xpart ps x d) (dbufAfterWrites S ps x d) (decide (0 < d)) j
        else 0)
        = beta * (if 0 ≤ j ∧ j < S.lhalo then
            lsum S (xpart ps x d) (dbufAfterWrites S ps x d) (decide (0 < d)) j
          else 0) := by
      split_ifs <;> ring
    have hR : (if partSize ps d - S.rhalo ≤ j ∧ j < partSize ps d then
          beta * rsum S (partSize ps d) (xpart ps x d) (dbufAfterWrites S ps x d)
            (decide (d + 1 < ps.length)) (j - (partSize ps d - S.rhalo))
        else 0)
        = beta * (if partSize ps d - S.rhalo ≤ j ∧ j < partSize ps d then
            rsum S (partSize ps d) (xpart ps x d) (dbufAfterWrites S ps x d)
              (decide (d + 1 < ps.length)) (j - (partSize ps d - S.rhalo))
          else 0) := by
      split_ifs <;> ring
    rw [hL, hR]
    linear_combination beta * key
  · rw [deviceOut, if_neg hhalo]
    simp only [conv_local_big]
    rw [if_pos hj, blendOut_split]
    rw [if_neg (by omega), if_neg (by omega), add_zero, add_zero] at key
    rw [key]

/-! ## The claims -/

/-- With `fast_kernel[d] = false` on every device, the dispatching
embedding coincides definitionally with the fallback-only `deviceOut`. -/
theorem deviceOutDispatch_fallback (S : Stencil) (ps : List Nat)
    (x y : Int → Int) (alpha beta : Int) (wgs : Nat → Int)
    (loc : Nat → Int → Int → Int) (d : Nat) :
    deviceOutDispatch S ps x y alpha beta (fun _ => false) wgs loc d
      = deviceOut S ps x y alpha beta d := rfl

/-- The start `wgs * (g / wgs)` of the work group containing `g` leaves
room for the final `n % wgs` elements: `G + n % wgs ≤ n` for `g < n`. -/
theorem group_start_le (n wgs g : Int) (hw : 0 < wgs) (_h0 : 0 ≤ g)
    (hgn : g < n) : wgs * (g / wgs) + n % wgs ≤ n := by
  have h1 := Int.ediv_add_emod g wgs
  have h2 := Int.ediv_add_emod n wgs
  have h3 := Int.emod_nonneg g (by omega : wgs ≠ 0)
  have h4 := Int.emod_lt_of_pos g hw
  have h5 := Int.emod_nonneg n (by omega : wgs ≠ 0)
  have h6 := Int.emod_lt_of_pos n hw
  have hq : g / wgs < n / wgs + 1 := by
    by_contra hcon
    push_neg at hcon
    have := mul_le_mul_of_nonneg_left hcon (le_of_lt hw)
    rw [mul_add, mul_one] at this
    omega
  have := mul_le_mul_of_nonneg_left (by omega : g / wgs ≤ n / wgs) (le_of_lt hw)
  omega

/-- When `wgs` divides `n` even the whole group fits: `G + wgs ≤ n`. -/
theorem group_start_add_wgs_le (n wgs g : Int) (hw : 0 < wgs) (_h0 : 0 ≤ g)
    (hgn : g < n) (hdvd : n % wgs = 0) : wgs * (g / wgs) + wgs ≤ n := by
  have h1 := Int.ediv_add_emod g wgs
  have h2 := Int.ediv_add_emod n wgs
  have h3 := Int.emod_nonneg g (by omega : wgs ≠ 0)
  have h4 := Int.emod_lt_of_pos g hw
  have hq : g / wgs < n / wgs := by
    by_contra hcon
    push_neg at hcon
    have := mul_le_mul_of_nonneg_left hcon (le_of_lt hw)
    omega
  have := mul_le_mul_of_nonneg_left (by omega : g / wgs + 1 ≤ n / wgs) (le_of_lt hw)
  rw [mul_add, mul_one] at this
  omega

/-- Outside the staging gap — `lhalo ≤ 1`, or `wgs` divides `n`, or the
ragged tail has at least `lhalo` elements — every slot the fast kernel
reads under its guard was staged with the true input value, and
`conv_local` computes exactly `conv_local_big` (for the work-group sizes
`wgs ≥ L` under which the fast kernel is ever selected).  Inside the gap
(`n % wgs ∈ [1, lhalo - 1]`) this fails: see
`C1_fast_kernel_staging_gap`. -/
theorem conv_local_eq_big (S : Stencil) (hS : S.Valid) (n wgs : Int)
    (x y : Int → Int) (loc : Int → Int → Int) (alpha beta : Int)
    (hw : S.lhalo + S.rhalo + 1 ≤ wgs)
    (hgap : n % wgs = 0 ∨ S.lhalo ≤ n % wgs ∨ S.lhalo ≤ 1) :
    conv_local S n wgs x y loc alpha beta = conv_local_big S n x y alpha beta := by
  have hl0 := lhalo_nonneg S
  have hr0 := rhalo_nonneg S hS
  have hwpos : (0 : Int) < wgs := by omega
  funext g
  rw [conv_local, conv_local_big]
  by_cases hg : 0 ≤ g ∧ g < n
  · rw [if_pos hg, if_pos hg]
    congr 1
    rw [interiorSum]
    refine Finset.sum_congr rfl ?_
    intro k hk
    simp only [Finset.mem_Icc] at hk
    by_cases hguard : 0 ≤ g + k ∧ g + k < n
    · rw [if_pos hguard, if_pos hguard]
      congr 1
      have hGu := Int.ediv_add_emod g wgs
      have hu0 := Int.emod_nonneg g (by omega : wgs ≠ 0)
      have huw := Int.emod_lt_of_pos g hwpos
      by_cases ht0 : g % wgs + k < 0
      · have hkey : wgs * (g / wgs) + (g % wgs + k) + S.lhalo < n := by
          rcases hgap with hc | hc | hc
          · have h2 := group_start_add_wgs_le n wgs g hwpos hg.1 hg.2 hc
            omega
          · have h2 := group_start_le n wgs g hwpos hg.1 hg.2
            omega
          · omega
        rw [xbufStaged, if_neg (by omega),
          if_pos ⟨by omega, ht0, by omega, by omega, hkey⟩]
        congr 1
        omega
      · by_cases htw : g % wgs + k < wgs
        · rw [xbufStaged, if_pos ⟨by omega, htw, by omega⟩]
          congr 1
          omega
        · rw [xbufStaged, if_neg (by omega), if_neg (by omega),
            if_pos ⟨by omega, by omega, by omega, Or.inr (by omega)⟩]
          congr 1
          omega
    · rw [if_neg hguard, if_neg hguard]
  · rw [if_neg hg, if_neg hg]

/-- The *fallback* path (every device on `conv_local_big`) does satisfy
the multi-device/single-device equivalence, under partitions of at least
the combined halo width: this is the behavior claim C1 describes, and
what the fast path fails to deliver (see `C1_fast_kernel_staging_gap`). -/
theorem deviceOut_multi_eq_single (S : Stencil) (ps : List Nat)
    (x y : Int → Int) (alpha beta : Int)
    (hS : S.Valid) (hne : ps ≠ [])
    (hps : ∀ p ∈ ps, S.lhalo + S.rhalo ≤ (p : Int))
    (d : Nat) (hd : d < ps.length)
    (j : Int) (hj : 0 ≤ j ∧ j < partSize ps d) :
    deviceOut S ps x y alpha beta d j
      = deviceOut S [ps.sum] x y alpha beta 0 (partStart ps d + j) := by
  have hps' : ∀ p ∈ [ps.sum], S.lhalo + S.rhalo ≤ (p : Int) := by
    intro p hp
    simp only [List.mem_singleton] at hp
    subst hp
    obtain ⟨q, hq⟩ := List.exists_mem_of_ne_nil ps hne
    have hle : q ≤ ps.sum := List.single_le_sum (fun _ _ => Nat.zero_le _) _ hq
    exact le_trans (hps q hq) (Int.ofNat_le.mpr hle)
  have hoN := partStart_add_le ps d hd
  have ho0 := partStart_nonneg ps d
  have hsz : partSize [ps.sum] 0 = ((ps.sum : Nat) : Int) := by
    simp [partSize]
  have hst : partStart [ps.sum] 0 = 0 := by simp [partStart]
  have hj' : 0 ≤ partStart ps d + j ∧ partStart ps d + j < partSize [ps.sum] 0 := by
    rw [hsz]
    omega
  rw [deviceOut_correct S hS ps x y alpha beta hps d hd j hj,
    deviceOut_correct S hS [ps.sum] x y alpha beta hps' 0 (by simp)
      (partStart ps d + j) hj', hst, zero_add]
  simp

/-- **C1 (code bug).** The fast interior kernel's left-halo staging
(`xbuf[l_id - lhalo] = x[g_id - lhalo]`, executed only when the *writing*
item's `g_id < n`) leaves slots unwritten in the last, ragged work group
whenever `n mod wgs ∈ [1, lhalo - 1]`; they are then read under a
satisfied guard, so the output depends on uninitialized local memory —
inside the claim's own proviso (partitions `≥ max(lhalo, rhalo)`).

Instance: weights `[1, 1, 1]`, center `2` (`lhalo = 2`, `rhalo = 0`),
input `x i = i + 1`, `alpha = 0`, `beta = 1`, fast kernel with
`wgs = 4 ≥ L = 3`.  Split `[5, 5]`: on device `0` (`n = 5`,
`5 mod 4 = 1`) the output at local index `4` sums
`x 2 + xbuf[-1] + x 4 = 3 + garbage + 5` (`1007` if the garbage slot
holds `999`, `8` if it holds `0`), while the single device (`n = 10`,
`10 mod 4 = 2 = lhalo`, no gap) produces the true value `12` at global
index `4` — so the multi-device and single-device outputs differ.  The
fallback kernel at the same input also produces `12`. -/
theorem C1_fast_kernel_staging_gap :
    deviceOutDispatch sGap [5, 5] xid zf 0 1 (fun _ => true) (fun _ => 4) locA 0 4 = 1007
    ∧ deviceOutDispatch sGap [10] xid zf 0 1 (fun _ => true) (fun _ => 4) locA 0 4 = 12
    ∧ deviceOutDispatch sGap [5, 5] xid zf 0 1 (fun _ => true) (fun _ => 4) locA 0 4
        ≠ deviceOutDispatch sGap [10] xid zf 0 1 (fun _ => true) (fun _ => 4) locA 0
            (partStart [5, 5] 0 + 4)
    ∧ deviceOutDispatch sGap [5, 5] xid zf 0 1 (fun _ => true) (fun _ => 4) locB 0 4 = 8
    ∧ deviceOutDispatch sGap [5, 5] xid zf 0 1 (fun _ => false) (fun _ => 4) locA 0 4 = 12
    ∧ clampedConv sGap 10 xid 4 = 12 := by decide

/-- **C2, counterexample.** The claim asserts the interior output at index
`1` of the Laplacian scenario equals `-1`; the code produces
`1*1 - 2*2 + 1*4 = 1` (the claim's formula is right, its stated value
`-1` is an arithmetic slip). -/
theorem C2_counterexample : deviceOut lap [5] x5 zf 0 1 0 1 ≠ -1 := by decide

/-- **C2, amended.** Single device, weights `[1, -2, 1]`, center `1`,
input `[1, 2, 4, 8, 16]`, `alpha = 0`, `beta = 1`: the interior outputs at
indices `1`–`3` are `1*1-2*2+1*4 = 1`, `1*2-2*4+1*8 = 2`,
`1*4-2*8+1*16 = 4`, and the boundary outputs at indices `0` and `4` equal
the stencil formula with out-of-range taps clamped to the nearest owned
value (`1` and `-8`). -/
theorem C2_laplacian_scenario :
    deviceOut lap [5] x5 zf 0 1 0 1 = 1
    ∧ deviceOut lap [5] x5 zf 0 1 0 2 = 2
    ∧ deviceOut lap [5] x5 zf 0 1 0 3 = 4
    ∧ deviceOut lap [5] x5 zf 0 1 0 0 = clampedConv lap 5 x5 0
    ∧ deviceOut lap [5] x5 zf 0 1 0 4 = clampedConv lap 5 x5 4
    ∧ clampedConv lap 5 x5 0 = 1
    ∧ clampedConv lap 5 x5 4 = -8 := by decide

/-- The *fallback* path does satisfy claim C6's blend/compose property,
under partitions of at least the combined halo width (which also keeps
the boundary kernel's two `+=` corrections on disjoint indices): this is
the behavior C6 describes, and what the fast path fails to deliver (see
`C6_blend_policy_gap`). -/
theorem deviceOut_blend_policy (S : Stencil) (ps : List Nat)
    (x y : Int → Int) (b : Int) (hS : S.Valid)
    (hps : ∀ p ∈ ps, S.lhalo + S.rhalo ≤ (p : Int))
    (d : Nat) (hd : d < ps.length)
    (j : Int) (hj : 0 ≤ j ∧ j < partSize ps d) :
    deviceOut S ps x y 1 b d j
      = y (partStart ps d + j)
        + b * clampedConv S ((ps.sum : Nat) : Int) x (partStart ps d + j)
    ∧ deviceOut S ps x y 0 b d j
      = b * clampedConv S ((ps.sum : Nat) : Int) x (partStart ps d + j) := by
  constructor
  · rw [deviceOut_correct S hS ps x y 1 b hps d hd j hj]
    norm_num
  · rw [deviceOut_correct S hS ps x y 0 b hps d hd j hj]
    norm_num

/-- **C6 (code bug).** The same fast-kernel staging gap as in
`C1_fast_kernel_staging_gap` breaks the claimed blend/compose property
inside its universal quantification: at the failing instance (weights
`[1, 1, 1]`, center `2`, split `[5, 5]`, `wgs = 4`, prior output
`y i = 100 i`, device `0`, local index `4`, garbage value `999`) the code
computes `1·y(4) + 2·(3 + 999 + 5) = 2414` with `alpha = 1, beta = 2`
where the claim requires `y(4) + 2·conv_pure(x)(4) = 400 + 24 = 424`, and
`2014` with `alpha = 0` where the claim requires `24`. -/
theorem C6_blend_policy_gap :
    deviceOutDispatch sGap [5, 5] xid yp 1 2 (fun _ => true) (fun _ => 4) locA 0 4 = 2414
    ∧ yp (partStart [5, 5] 0 + 4)
        + 2 * clampedConv sGap ((([5, 5] : List Nat).sum : Nat) : Int) xid
            (partStart [5, 5] 0 + 4) = 424
    ∧ deviceOutDispatch sGap [5, 5] xid yp 1 2 (fun _ => true) (fun _ => 4) locA 0 4
        ≠ yp (partStart [5, 5] 0 + 4)
          + 2 * clampedConv sGap ((([5, 5] : List Nat).sum : Nat) : Int) xid
              (partStart [5, 5] 0 + 4)
    ∧ deviceOutDispatch sGap [5, 5] xid yp 0 2 (fun _ => true) (fun _ => 4) locA 0 4 = 2014
    ∧ 2 * clampedConv sGap 10 xid 4 = 24 := by decide

/-- **C3, counterexample.** The claim says a device with a *right*
neighbor contributes its trailing `right_halo` owned elements to the
staging buffer (and one with a *left* neighbor its leading `left_halo`
elements).  For the filter `s3` (`lhalo = 0`, `rhalo = 2`), two devices of
size `2` and input values `10, 20, 30, 40`: per the claim, device `0`
(which has a right neighbor) would stage its trailing two elements
(`10, 20`); the code stages nothing for device `0` (its condition is
`lhalo > 0`), and the whole staging buffer holds only device `1`'s leading
elements `30, 40` — the claimed value `10` appears nowhere. -/
theorem C3_counterexample :
    hbufAfterReads s3 [2, 2] xTen 0 0 ≠ hbufClaimed s3 [2, 2] xTen 0 0
    ∧ hbufClaimed s3 [2, 2] xTen 0 0 = 10
    ∧ hbufAfterReads s3 [2, 2] xTen 0 0 = 0
    ∧ hbufAfterReads s3 [2, 2] xTen 0 1 = 0
    ∧ hbufAfterReads s3 [2, 2] xTen 1 0 = 30
    ∧ hbufAfterReads s3 [2, 2] xTen 1 1 = 40 := by decide

/-- **C3, amended.** During halo exchange: each device that has a right
neighbor contributes its trailing `left_halo` owned elements to the host
staging buffer, each device that has a left neighbor contributes its
leading `right_halo` owned elements, and afterwards each device's halo
buffer receives its left neighbor's tail fragment (of `left_halo`
elements) in the left-halo slot and its right neighbor's head fragment
(of `right_halo` elements) in the right-halo slot.  Each conjunct carries
exactly its own neighbor-existence condition, so the first and last
device are covered for the neighbor they do have. -/
theorem C3_halo_exchange (S : Stencil) (ps : List Nat) (x : Int → Int)
    (d : Nat) (j1 j2 i1 i2 : Int) (hd : d < ps.length) :
    (0 < d → 0 ≤ j1 → j1 < S.rhalo →
      hbufAfterReads S ps x d j1 = xpart ps x d j1)
    ∧ (d + 1 < ps.length → 0 ≤ j2 → j2 < S.lhalo →
      hbufAfterReads S ps x d (S.rhalo + j2)
        = xpart ps x d (partSize ps d - S.lhalo + j2))
    ∧ (0 < d → 0 ≤ i1 → i1 < S.lhalo →
      dbufAfterWrites S ps x d i1
        = xpart ps x (d - 1) (partSize ps (d - 1) - S.lhalo + i1))
    ∧ (d + 1 < ps.length → 0 ≤ i2 → i2 < S.rhalo →
      dbufAfterWrites S ps x d (S.lhalo + i2) = xpart ps x (d + 1) i2) := by
  refine ⟨fun hd0 hj0 hj1 => ?_, fun hd1 hj0 hj1 => ?_,
    fun hd0 hi0 hi1 => ?_, fun hd1 hi0 hi1 => ?_⟩
  · rw [hbufAfterReads, if_pos ⟨hd0, by omega, hj0, hj1⟩]
  · rw [hbufAfterReads,
      if_neg (show ¬(0 < d ∧ 0 < S.rhalo ∧ 0 ≤ S.rhalo + j2 ∧ S.rhalo + j2 < S.rhalo)
        from by omega),
      if_pos ⟨hd1, by omega, by omega, by omega⟩,
      show partSize ps d - S.lhalo + (S.rhalo + j2 - S.rhalo)
          = partSize ps d - S.lhalo + j2 from by ring]
  · rw [dbuf_left S ps x d hd0 hd i1 ⟨hi0, hi1⟩, xpart]
    have hs := partStart_succ ps (d - 1) (by omega)
    rw [show d - 1 + 1 = d from by omega] at hs
    congr 1
    omega
  · rw [dbuf_right S ps x d hd1 i2 ⟨hi0, hi1⟩, xpart, partStart_succ ps d hd]

/-- Witness for C3 (amended): the Laplacian filter (`lhalo = rhalo = 1`)
on the spec's two-device split, input `10 * (i + 1)`.  Device `1` (has a
left neighbor) contributes its leading element and its halo buffer's
left slot holds device `0`'s tail; device `0` (has a right neighbor)
contributes its trailing element and its halo buffer's right slot holds
device `1`'s head. -/
theorem C3_witness :
    hbufAfterReads lap [2, 2] xTen 1 0 = xpart [2, 2] xTen 1 0
    ∧ hbufAfterReads lap [2, 2] xTen 0 (lap.rhalo + 0)
        = xpart [2, 2] xTen 0 (partSize [2, 2] 0 - lap.lhalo + 0)
    ∧ dbufAfterWrites lap [2, 2] xTen 1 0
        = xpart [2, 2] xTen (1 - 1) (partSize [2, 2] (1 - 1) - lap.lhalo + 0)
    ∧ dbufAfterWrites lap [2, 2] xTen 0 (lap.lhalo + 0)
        = xpart [2, 2] xTen (0 + 1) 0 :=
  ⟨(C3_halo_exchange lap [2, 2] xTen 1 0 0 0 0 (by decide)).1
      (by decide) (by decide) (by decide),
    (C3_halo_exchange lap [2, 2] xTen 0 0 0 0 0 (by decide)).2.1
      (by decide) (by decide) (by decide),
    (C3_halo_exchange lap [2, 2] xTen 1 0 0 0 0 (by decide)).2.2.1
      (by decide) (by decide) (by decide),
    (C3_halo_exchange lap [2, 2] xTen 0 0 0 0 0 (by decide)).2.2.2
      (by decide) (by decide) (by decide)⟩

/-- **C4 (code bug).** The generalized filter's generated source applies
the selected transform (`func::value()`) to each row's partial sum in the
interior kernel and at the left edge of the boundary kernel, but the
right-edge stage hard-codes the built-in `sin` (`srow += sin(scol);`).
With `G4` (`rows = 1`, `cols = 3`, `center = 1`, weights `[1,1,1]`),
input `[1, 2, 4]`, a single device, `alpha = 0`, `beta = 1`, and the
transform interpreted as `t ↦ t + 100` while `sin` is interpreted as
`t ↦ 0`: the interior output at `1` is `f(1+2+4) = 107` and the left-edge
output at `0` is `f(1+1+2) = 104` (transform applied), but the right-edge
output at `2` is `sin(2+4+4) = 0` instead of the claimed
`f(2+4+4) = 110`. -/
theorem C4_right_edge_transform_bug :
    gconv_local G4 f4 3 x3 zf 0 1 1 = 107
    ∧ gconv_remote G4 f4 sin4 3 x3 zf zf false false 0 1 0 = 104
    ∧ gconv_remote G4 f4 sin4 3 x3 zf zf false false 0 1 2 = 0
    ∧ gconv_remote_claimed G4 f4 3 x3 zf zf false false 0 1 2 = 110
    ∧ gconv_remote G4 f4 sin4 3 x3 zf zf false false 0 1 2
        ≠ gconv_remote_claimed G4 f4 3 x3 zf zf false false 0 1 2 := by decide

/-- **C5.** Per device at filter construction: starting from the default
work-group size `w0`, the size is halved while it is at least the filter
width `L` and the size plus twice the filter width exceeds the available
local-memory capacity `smem`; if the resulting size is below the filter
width, the device is marked for the fallback interior kernel
(`fast_kernel[d] = false`) with the work-group size reverted to the
default, otherwise for the fast kernel with the shrunk size. -/
theorem C5_capacity_planner (L smem w0 : Nat) (_hL : 1 ≤ L) :
    ∃ m : Nat,
      (∀ q < m, L ≤ w0 / 2 ^ q ∧ smem < w0 / 2 ^ q + 2 * L) ∧
      ¬(L ≤ w0 / 2 ^ m ∧ smem < w0 / 2 ^ m + 2 * L) ∧
      shrinkWgs L smem w0 = w0 / 2 ^ m ∧
      planDevice L smem w0
        = if w0 / 2 ^ m < L then (w0, false) else (w0 / 2 ^ m, true) := by
  obtain ⟨m, h1, h2, h3⟩ := shrinkAux_spec L smem w0 w0 le_rfl
  refine ⟨m, h1, h2, h3, ?_⟩
  simp only [planDevice, shrinkWgs] at h3 ⊢
  rw [h3]

/-- Witness for C5: filter width `3`, capacity `10` elements, default
work-group size `16`; the loop halves `16 → 8 → 4`, `4 ≥ 3`, so the fast
kernel is selected with work-group size `4`. -/
theorem C5_witness :
    1 ≤ 3
    ∧ (∃ m : Nat,
        (∀ q < m, 3 ≤ 16 / 2 ^ q ∧ 10 < 16 / 2 ^ q + 2 * 3) ∧
        ¬(3 ≤ 16 / 2 ^ m ∧ 10 < 16 / 2 ^ m + 2 * 3) ∧
        shrinkWgs 3 10 16 = 16 / 2 ^ m ∧
        planDevice 3 10 16
          = if 16 / 2 ^ m < 3 then (16, false) else (16 / 2 ^ m, true)) :=
  ⟨by decide, C5_capacity_planner 3 10 16 (by decide)⟩

/-- **C7 (code bug).** `build_sources` does read the top of the
compile-flags stack at call time (`options + " " + get_compile_options`),
but the program source generated by `stencil<T>::init` is *not* prefixed
with the program-header stack's top: `source << standard_kernel_header`
streams the *function* `standard_kernel_header` (declared in `util.hpp`
with a `cl::Device` parameter) without calling it, which prints the
function-pointer-to-`bool` conversion `"1"`.  The generated source starts
with `"1typedef ..."` and contains neither the fp64 pragma block nor any
pushed header text. -/
theorem C7_header_stack_not_read :
    build_sources_options "" ["-DFOO"] = " -DFOO"
    ∧ (stencilProgramSource "double" "ulong").data.head? = some '1'
    ∧ (∀ rest : String,
        stencilProgramSource "double" "ulong" ≠ standard_kernel_header ["X"] ++ rest)
    ∧ standard_kernel_header ["X"] = opencl_fp64_pragma ++ "X"
    ∧ stencilProgramSource "double" "ulong"
        = streamedFunctionPointer ++ stencilKernelBody "double" "ulong" := by
  refine ⟨rfl, ?_, ?_, rfl, rfl⟩
  · simp [stencilProgramSource, streamedFunctionPointer, String.data_append]
  · intro rest h
    have h2 := congrArg (fun s => s.data.head?) h
    simp only [stencilProgramSource, standard_kernel_header, streamedFunctionPointer,
      opencl_fp64_pragma, device_options.get, String.data_append] at h2
    simp at h2

/-- **C8.** For each cache key — the key type `K` covers both the plain
filter (context identity) and the generalized filter (context identity
paired with the transform selector) — compilation happens exactly once:
a run of the guarded device loop compiles exactly the keys not already
cached, each at most once (populating the cache), and a second run over
the same keys compiles nothing. -/
theorem C8_compile_once {K : Type} [DecidableEq K] (cache keys : List K) :
    (compileGuardRun (compileGuardRun cache keys).1 keys).2 = []
    ∧ (∀ k : K, (compileGuardRun cache keys).2.countP (fun a => decide (a = k))
        = if k ∉ cache ∧ k ∈ keys then 1 else 0)
    ∧ (∀ k ∈ keys, k ∈ (compileGuardRun cache keys).1) :=
  ⟨compileGuardRun_none _ _ (fun k hk =>
      (compileGuardRun_mem_fst cache keys k).mpr (Or.inr hk)),
    fun k => compileGuardRun_count cache keys k,
    fun k hk => (compileGuardRun_mem_fst cache keys k).mpr (Or.inr hk)⟩

/-- Witness for C8: generalized-filter keys (context, transform); the key
`(1, 7)` appears twice in the device loop, is compiled on first sight,
remains cached, and the second call compiles nothing. -/
theorem C8_witness :
    ((1, 7) : Nat × Nat) ∈ [((1, 7) : Nat × Nat), (1, 7), (2, 7)]
    ∧ ((1, 7) : Nat × Nat) ∈ (compileGuardRun [] [((1, 7) : Nat × Nat), (1, 7), (2, 7)]).1
    ∧ (compileGuardRun
        (compileGuardRun ([] : List (Nat × Nat)) [(1, 7), (1, 7), (2, 7)]).1
        [(1, 7), (1, 7), (2, 7)]).2 = [] :=
  ⟨by decide,
    (C8_compile_once [] [((1, 7) : Nat × Nat), (1, 7), (2, 7)]).2.2 (1, 7) (by decide),
    (C8_compile_once ([] : List (Nat × Nat)) [(1, 7), (1, 7), (2, 7)]).1⟩

/-- **C9.** For every weight sequence of length `L ≥ 1` and center
`c < L`, the constructed filter satisfies `left_halo = c` and
`left_halo + right_halo = L - 1`; likewise for the generalized filter with
its per-row width `cols` (the asserted range of its center).  Both fields
are assigned once in `init` and never reassigned, so they are modelled as
immutable derived values of the descriptor. -/
theorem C9_halo_invariant (S : Stencil) (G : GStencil)
    (_hS : S.Valid) (_hG : G.center < G.cols) :
    S.lhalo = S.center
    ∧ S.lhalo + S.rhalo = (S.data.length : Int) - 1
    ∧ G.lhalo = G.center
    ∧ G.lhalo + G.rhalo = (G.cols : Int) - 1 := by
  refine ⟨rfl, ?_, rfl, ?_⟩
  · rw [Stencil.lhalo, Stencil.rhalo]
    ring
  · rw [GStencil.lhalo, GStencil.rhalo]
    ring

/-- Witness for C9: the Laplacian filter (`L = 3`, `c = 1`) and the
generalized filter `G4` (`cols = 3`, `c = 1`). -/
theorem C9_witness :
    lap.Valid
    ∧ G4.center < G4.cols
    ∧ (lap.lhalo = lap.center
      ∧ lap.lhalo + lap.rhalo = (lap.data.length : Int) - 1
      ∧ G4.lhalo = G4.center
      ∧ G4.lhalo + G4.rhalo = (G4.cols : Int) - 1) :=
  ⟨by decide, by decide, C9_halo_invariant lap G4 (by decide) (by decide)⟩

/-- **C10.** `get` on an empty per-device stack inserts an empty-string
entry as a side effect (and returns it); a `pop` immediately following
such a `get` removes that entry, so the stack is observably modified by
the read; `push` followed by `pop` restores the stack, and in particular
the previous top. -/
theorem C10_get_mutates_empty_stack :
    device_options.get [] = ([""], "")
    ∧ device_options.pop (device_options.get []).1 = []
    ∧ (∀ (st : List String) (s : String),
        device_options.pop (device_options.push st s) = st)
    ∧ (∀ (st : List String) (s : String),
        (device_options.get (device_options.pop (device_options.push st s))).2
          = (device_options.get st).2) :=
  ⟨rfl, rfl, fun _ _ => rfl, fun _ _ => rfl⟩

end VexCL
